import Mathlib

/-
Verification of the fst library (file-system testing helpers).

The development shallowly embeds the two source files:
  * file_rank.go   — rank primitives (ByName, ByDir, BySize, ByTime, ByPerm),
                     the ByContent comparator factory, and Less composition;
  * the lifecycle file — TempInitDir, TempInitChdir, TempCloneDir,
                     TempCloneChdir, TempCreateChdir and their teardowns.

Effectful Go code is embedded as pure functions over explicit outcome
environments that also produce a trace of the effects performed, and the
teardown's directory walk is embedded over an explicit file-tree datatype.
-/

namespace Fst

/-- Modelled from the spec: the repository's FileInfoPath type (the spec's
FileEntryDescriptor) is not among the provided source files; only its
accessors Path, Name, IsDir, Mode, Size and ModTime are used by
file_rank.go.  Fields: full path, base name, directory flag, Go FileMode
bits, byte size, and the modification time in nanoseconds. -/
structure FileInfoPath where
  path : String
  name : String
  isDir : Bool
  mode : Nat
  size : Int
  modTime : Int
deriving DecidableEq

/-- Go os.FileMode type bits (ModeDir, ModeSymlink, ModeNamedPipe,
ModeSocket, ModeDevice, ModeCharDevice, ModeIrregular), the mask used by
Mode().IsRegular(). -/
def modeTypeMask : Nat :=
  2 ^ 31 + 2 ^ 27 + 2 ^ 26 + 2 ^ 25 + 2 ^ 24 + 2 ^ 21 + 2 ^ 19

/-- Go Mode().IsRegular(): no type bit is set. -/
def isRegularMode (m : Nat) : Bool :=
  m &&& modeTypeMask == 0

/-- Go Mode().Perm(): the low 9 permission bits (mask 0o777 = 511). -/
def permBits (m : Nat) : Nat :=
  m &&& 511

/-- FileRank is the signature of comparator functions (file_rank.go line 27). -/
abbrev FileRank := FileInfoPath → FileInfoPath → Bool

/-- ByName (file_rank.go lines 31-33): lexicographic comparison of names. -/
def ByName (left right : FileInfoPath) : Bool :=
  decide (left.name < right.name)

/-- ByDir (file_rank.go lines 37-39): directories sort before files. -/
def ByDir (left right : FileInfoPath) : Bool :=
  left.isDir && !right.isDir

/-- BySize (file_rank.go lines 43-47): only regular files compare by size. -/
def BySize (left right : FileInfoPath) : Bool :=
  isRegularMode left.mode && isRegularMode right.mode &&
    decide (left.size < right.size)

/-- ByTime (file_rank.go lines 51-53):
left.ModTime().Before(right.ModTime().Add(-10 * time.Microsecond)); times
are in nanoseconds, so 10 microseconds is 10000. -/
def ByTime (left right : FileInfoPath) : Bool :=
  decide (left.modTime < right.modTime - 10000)

/-- ByPerm (file_rank.go lines 56-58): compares the low 9 mode bits. -/
def ByPerm (left right : FileInfoPath) : Bool :=
  decide (permBits left.mode < permBits right.mode)

/-- Less (file_rank.go lines 108-115): applies the comparators in order,
returning true at the first comparator that returns true. -/
def Less (left right : FileInfoPath) : List FileRank → Bool
  | [] => false
  | less :: rest => if less left right then true else Less left right rest

/-- Instrumented variant of Less that additionally counts how many
comparator applications were performed, used to state that Less
short-circuits: it never applies comparators past the first decisive one. -/
def lessEvalCount (left right : FileInfoPath) : List FileRank → Bool × Nat
  | [] => (false, 0)
  | less :: rest =>
    if less left right then (true, 1)
    else
      let r := lessEvalCount left right rest
      (r.1, r.2 + 1)

/-- Outcome of one bufio ReadByte call: a byte, end of file, or a non-EOF
read error.  The Go loop in ByContent only tests err != nil, so eof and
err flow through the same branch there; keeping them separate constructors
lets theorems talk about transient read errors specifically. -/
inductive ReadResult where
  | ok (b : Nat)
  | eof
  | err
deriving DecidableEq

/-- The comparison loop of ByContent (file_rank.go lines 83-102) over the
sequences of ReadByte outcomes of the two buffered readers.  Each
iteration reads from the right stream first; any right-side error (EOF or
otherwise) returns false; then it reads from the left stream; any
left-side error returns true; equal bytes continue the loop; otherwise the
result is whether the left byte is numerically smaller. -/
def contentLoop : List ReadResult → List ReadResult → Bool
  | _, [] => false
  | _, .eof :: _ => false
  | _, .err :: _ => false
  | [], .ok _ :: _ => true
  | .eof :: _, .ok _ :: _ => true
  | .err :: _, .ok _ :: _ => true
  | .ok lb :: ls, .ok rb :: rs =>
    if lb = rb then contentLoop ls rs else decide (lb < rb)

/-- The content loop specialised to error-free streams: two files whose
contents are the given byte lists, each read ending in a clean EOF. -/
def byContentBytes (l r : List Nat) : Bool :=
  contentLoop (l.map ReadResult.ok) (r.map ReadResult.ok)

/-- Result of a comparison by the closure that ByContent returns: either
t.Fatal was invoked with an error (aborting the test, no boolean is
produced), or an ordinary boolean rank result. -/
inductive FatalOr (α : Type) where
  | fatal (e : String)
  | value (a : α)
deriving DecidableEq

/-- ByContent (file_rank.go lines 67-103).  The filesystem is abstracted
as a map from a path to the outcome of opening that file: an open error,
or the stream of ReadByte outcomes its buffered reader yields.  The
closure opens the left file first, then the right file; an open error is
reported through t.Fatal (the fatal constructor); otherwise the comparison
loop produces the boolean. -/
def ByContent (fs : String → Except String (List ReadResult))
    (left right : FileInfoPath) : FatalOr Bool :=
  match fs left.path with
  | .error e => .fatal e
  | .ok leftBuf =>
    match fs right.path with
    | .error e => .fatal e
    | .ok rightBuf => .value (contentLoop leftBuf rightBuf)

/-- Outcomes of the fallible primitive steps used by the lifecycle
operations: ioutil.TempDir, TreeCopy, os.Getwd, os.Chdir and TreeCreate.
TreeCopy and TreeCreate are external collaborators of the core; only
their success or failure is observable to the lifecycle code. -/
structure Env where
  tempDirResult : Except String String
  treeCopyErr : Option String
  getwdResult : Except String String
  chdirErr : Option String
  treeCreateErr : Option String

/-- The teardown closures the lifecycle operations build: TempInitDir's
cleanup closure over its root, and the composite closure of the chdir
variants, which changes back to the captured working directory and then
invokes the inner teardown. -/
inductive Teardown where
  | initCleanup (root : String)
  | chdirThen (wd : String) (inner : Teardown)
deriving DecidableEq

/-- Observable effects performed by the lifecycle operations, in order.
initCleanupRun marks an invocation of TempInitDir's cleanup closure on the
given root; its body (the two-phase removal walk) is modelled in detail by
phase1Acts and walkDirs below. -/
inductive Eff where
  | mkTempDir
  | removeAll (p : String)
  | initCleanupRun (root : String)
  | treeCopy (src dst : String)
  | getwd
  | chdir (d : String)
  | treeCreate
deriving DecidableEq

/-- Effect trace of invoking a teardown closure. -/
def runTeardown : Teardown → List Eff
  | .initCleanup root => [.initCleanupRun root]
  | .chdirThen wd inner => .chdir wd :: runTeardown inner

/-- Effect trace of invoking an optional teardown (Go nil function check;
the lifecycle code only ever invokes non-nil cleanups). -/
def runTeardownOpt : Option Teardown → List Eff
  | none => []
  | some td => runTeardown td

/-- The result triple of each lifecycle operation: the returned string
(path or previous working directory, empty on failure), the returned
teardown (none models Go's nil), and the returned error (none is nil). -/
abbrev LcResult := String × Option Teardown × Option String

/-- TempInitDir (lifecycle file lines 31-68): creates the temporary
directory; on a creation error it removes whatever path was returned
(the empty string) and returns an absent handle; on success it returns
the root and its cleanup closure. -/
def TempInitDir (env : Env) : LcResult × List Eff :=
  match env.tempDirResult with
  | .error e => (("", none, some e), [.mkTempDir, .removeAll ""])
  | .ok root => ((root, some (.initCleanup root), none), [.mkTempDir])

/-- TempInitChdir (lifecycle file lines 83-107): TempInitDir, then Getwd,
then Chdir into the root; on a Getwd or Chdir failure the already-created
cleanup is invoked and an absent handle is returned; on success it
returns the previous working directory and the composite teardown. -/
def TempInitChdir (env : Env) : LcResult × List Eff :=
  let ((root, cleanup, err), tr) := TempInitDir env
  match err with
  | some e => (("", none, some e), tr)
  | none =>
    match env.getwdResult with
    | .error e => (("", none, some e), tr ++ [.getwd] ++ runTeardownOpt cleanup)
    | .ok wd =>
      match env.chdirErr with
      | some e =>
        (("", none, some e), tr ++ [.getwd, .chdir root] ++ runTeardownOpt cleanup)
      | none =>
        ((wd, cleanup.map (fun td => .chdirThen wd td), none),
         tr ++ [.getwd, .chdir root])

/-- TempCloneDir (lifecycle file lines 132-145): TempInitDir, then
TreeCopy of the source tree into the root; on a copy failure the
already-created cleanup is invoked and an absent handle is returned. -/
def TempCloneDir (src : String) (env : Env) : LcResult × List Eff :=
  let ((root, cleanup, err), tr) := TempInitDir env
  match err with
  | some e => (("", none, some e), tr)
  | none =>
    match env.treeCopyErr with
    | some e =>
      (("", none, some e), tr ++ [.treeCopy src root] ++ runTeardownOpt cleanup)
    | none => ((root, cleanup, none), tr ++ [.treeCopy src root])

/-- TempCloneChdir (lifecycle file lines 158-183): TempCloneDir, then
Getwd, then Chdir into the clone, mirroring TempInitChdir's composite
teardown and failure handling. -/
def TempCloneChdir (src : String) (env : Env) : LcResult × List Eff :=
  let ((root, cleanup, err), tr) := TempCloneDir src env
  match err with
  | some e => (("", none, some e), tr)
  | none =>
    match env.getwdResult with
    | .error e => (("", none, some e), tr ++ [.getwd] ++ runTeardownOpt cleanup)
    | .ok wd =>
      match env.chdirErr with
      | some e =>
        (("", none, some e), tr ++ [.getwd, .chdir root] ++ runTeardownOpt cleanup)
      | none =>
        ((wd, cleanup.map (fun td => .chdirThen wd td), none),
         tr ++ [.getwd, .chdir root])

/-- TempCreateChdir (lifecycle file lines 190-204): TempInitChdir, then
TreeCreate from the config stream; on a creation failure the composite
cleanup is invoked and an absent handle is returned. -/
def TempCreateChdir (env : Env) : LcResult × List Eff :=
  let ((old, cleanup, err), tr) := TempInitChdir env
  match err with
  | some e => (("", none, some e), tr)
  | none =>
    match env.treeCreateErr with
    | some e =>
      (("", none, some e), tr ++ [.treeCreate] ++ runTeardownOpt cleanup)
    | none => ((old, cleanup, none), tr ++ [.treeCreate])

/-- A filesystem tree as seen by the teardown closure's walk: a
non-directory entry, or a directory with its permission bits and its
children. -/
inductive FsNode where
  | file (name : String)
  | dir (name : String) (perm : Nat) (children : List FsNode)

/-- Base name of a tree node, as os.FileInfo.Name() reports it. -/
def nodeName : FsNode → String
  | .file n => n
  | .dir n _ _ => n

/-- Children in the order filepath.Walk visits them: sorted by name
(filepath's readDirNames sorts the directory entries). -/
def sortByName (cs : List FsNode) : List FsNode :=
  cs.mergeSort (fun a b => decide (nodeName a ≤ nodeName b))

theorem mem_sortByName {c : FsNode} {cs : List FsNode} :
    c ∈ sortByName cs ↔ c ∈ cs :=
  (List.mergeSort_perm cs _).mem_iff

theorem perm_sizeOf_eq {α : Type} [SizeOf α] {l₁ l₂ : List α}
    (h : l₁.Perm l₂) : sizeOf l₁ = sizeOf l₂ := by
  induction h with
  | nil => rfl
  | cons x _ ih => simp [ih]
  | swap x y l => simp; omega
  | trans _ _ ih₁ ih₂ => omega

theorem sizeOf_sortByName (cs : List FsNode) :
    sizeOf (sortByName cs) = sizeOf cs :=
  perm_sizeOf_eq (List.mergeSort_perm cs _)

mutual

/-- The paths (as segment lists, relative to the walk's starting point)
of the directories recorded by the teardown's filepath.Walk closure
(lifecycle file lines 41-56), in visitation order: each directory is
recorded when visited, before its children, and children are walked in
name order. -/
def walkDirs : List String → FsNode → List (List String)
  | _, .file _ => []
  | pre, .dir n _ cs =>
    (pre ++ [n]) :: walkDirsList (pre ++ [n]) (sortByName cs)
termination_by _ t => sizeOf t
decreasing_by
  simp_wf
  rw [sizeOf_sortByName]
  omega

/-- walkDirs over a list of sibling nodes, in order. -/
def walkDirsList : List String → List FsNode → List (List String)
  | _, [] => []
  | pre, c :: cs => walkDirs pre c ++ walkDirsList pre cs
termination_by _ l => sizeOf l
decreasing_by
  all_goals simp_wf
  all_goals omega

end

/-- Actions of the teardown walk, in order: a chmod of a directory, the
immediate removal (os.Remove) of a non-directory entry, and the phase-two
removal (os.RemoveAll) of a recorded directory. -/
inductive TdAct where
  | chmod (p : List String) (mode : Nat)
  | remove (p : List String)
  | removeAll (p : List String)
deriving DecidableEq

mutual

/-- Phase one of the teardown (the filepath.Walk closure, lifecycle file
lines 41-56): every directory encountered is chmod'ed to 0700 (448) and
recorded; every non-directory entry is removed immediately. -/
def phase1Acts : List String → FsNode → List TdAct
  | pre, .file n => [.remove (pre ++ [n])]
  | pre, .dir n _ cs =>
    .chmod (pre ++ [n]) 448 :: phase1ActsList (pre ++ [n]) (sortByName cs)
termination_by _ t => sizeOf t
decreasing_by
  simp_wf
  rw [sizeOf_sortByName]
  omega

/-- phase1Acts over a list of sibling nodes, in order. -/
def phase1ActsList : List String → List FsNode → List TdAct
  | _, [] => []
  | pre, c :: cs => phase1Acts pre c ++ phase1ActsList pre cs
termination_by _ l => sizeOf l
decreasing_by
  all_goals simp_wf
  all_goals omega

end

/-- The full action trace of the teardown closure returned by TempInitDir
(lifecycle file lines 38-67): the phase-one walk, then os.RemoveAll of
each recorded directory in reverse visitation order. -/
def teardownActs (t : FsNode) : List TdAct :=
  phase1Acts [] t ++ (walkDirs [] t).reverse.map (fun d => TdAct.removeAll d)

theorem walkDirs_file (pre : List String) (n : String) :
    walkDirs pre (.file n) = [] := by
  simp [walkDirs]

theorem walkDirs_dir (pre : List String) (n : String) (p : Nat)
    (cs : List FsNode) :
    walkDirs pre (.dir n p cs) =
      (pre ++ [n]) :: walkDirsList (pre ++ [n]) (sortByName cs) := by
  simp [walkDirs]

theorem walkDirsList_nil (pre : List String) : walkDirsList pre [] = [] := by
  simp [walkDirsList]

theorem walkDirsList_cons (pre : List String) (c : FsNode)
    (cs : List FsNode) :
    walkDirsList pre (c :: cs) = walkDirs pre c ++ walkDirsList pre cs := by
  simp [walkDirsList]

theorem mem_walkDirsList {pre d : List String} {cs : List FsNode} :
    d ∈ walkDirsList pre cs ↔ ∃ c ∈ cs, d ∈ walkDirs pre c := by
  induction cs with
  | nil => simp [walkDirsList_nil]
  | cons c cs ih =>
    rw [walkDirsList_cons]
    simp [List.mem_append, ih]

theorem phase1Acts_file (pre : List String) (n : String) :
    phase1Acts pre (.file n) = [.remove (pre ++ [n])] := by
  simp [phase1Acts]

theorem phase1Acts_dir (pre : List String) (n : String) (p : Nat)
    (cs : List FsNode) :
    phase1Acts pre (.dir n p cs) =
      .chmod (pre ++ [n]) 448 :: phase1ActsList (pre ++ [n]) (sortByName cs) := by
  simp [phase1Acts]

theorem phase1ActsList_nil (pre : List String) : phase1ActsList pre [] = [] := by
  simp [phase1ActsList]

theorem phase1ActsList_cons (pre : List String) (c : FsNode)
    (cs : List FsNode) :
    phase1ActsList pre (c :: cs) = phase1Acts pre c ++ phase1ActsList pre cs := by
  simp [phase1ActsList]

theorem mem_phase1ActsList {pre : List String} {a : TdAct} {cs : List FsNode} :
    a ∈ phase1ActsList pre cs ↔ ∃ c ∈ cs, a ∈ phase1Acts pre c := by
  induction cs with
  | nil => simp [phase1ActsList_nil]
  | cons c cs ih =>
    rw [phase1ActsList_cons]
    simp [List.mem_append, ih]

theorem walk_mem_aux (N : Nat) :
    ∀ (t : FsNode), sizeOf t ≤ N → ∀ (pre d : List String),
      d ∈ walkDirs pre t → (pre ++ [nodeName t]) <+: d := by
  induction N with
  | zero =>
    intro t ht
    exfalso
    cases t <;> simp at ht
  | succ N ih =>
    intro t ht pre d hd
    cases t with
    | file n => rw [walkDirs_file] at hd; cases hd
    | dir n p cs =>
      rw [walkDirs_dir] at hd
      rcases List.mem_cons.mp hd with h | h
      · subst h
        simp [nodeName]
      · obtain ⟨c, hc, hdc⟩ := mem_walkDirsList.mp h
      -- from the recursive walk below c
        have hsz : sizeOf c ≤ N := by
          have h1 := List.sizeOf_lt_of_mem (mem_sortByName.mp hc)
          have h2 : sizeOf (FsNode.dir n p cs) = 1 + sizeOf n + p + sizeOf cs := by
            simp
          omega
        have h3 := ih c hsz (pre ++ [n]) d hdc
        have h4 : (pre ++ [nodeName (FsNode.dir n p cs)]) <+:
            (pre ++ [n] ++ [nodeName c]) := by
          simp [nodeName]
        exact h4.trans h3

theorem walk_mem {t : FsNode} {pre d : List String} (hd : d ∈ walkDirs pre t) :
    (pre ++ [nodeName t]) <+: d :=
  walk_mem_aux (sizeOf t) t le_rfl pre d hd

theorem walk_head_mem {t : FsNode} {pre d : List String}
    (hd : d ∈ walkDirs pre t) : (pre ++ [nodeName t]) ∈ walkDirs pre t := by
  cases t with
  | file n => rw [walkDirs_file] at hd; cases hd
  | dir n p cs =>
    rw [walkDirs_dir]
    simp [nodeName]

theorem walkList_pairwise_aux (N : Nat)
    (ihnode : ∀ (t : FsNode), sizeOf t ≤ N → ∀ pre : List String,
      (walkDirs pre t).Nodup →
      (walkDirs pre t).Pairwise (fun x y => ¬(y <+: x ∧ y ≠ x))) :
    ∀ (ds : List FsNode), (∀ c ∈ ds, sizeOf c ≤ N) → ∀ pre : List String,
      (walkDirsList pre ds).Nodup →
      (walkDirsList pre ds).Pairwise (fun x y => ¬(y <+: x ∧ y ≠ x)) := by
  intro ds
  induction ds with
  | nil =>
    intro _ pre _
    rw [walkDirsList_nil]
    exact List.Pairwise.nil
  | cons c ds ihl =>
    intro hsz pre hnd
    rw [walkDirsList_cons] at hnd ⊢
    have hA : (walkDirs pre c).Nodup := hnd.of_append_left
    have hB : (walkDirsList pre ds).Nodup := hnd.of_append_right
    have hdisj := List.disjoint_of_nodup_append hnd
    rw [List.pairwise_append]
    refine ⟨ihnode c (hsz c (List.mem_cons_self c ds)) pre hA,
      ihl (fun c' hc' => hsz c' (List.mem_cons_of_mem c hc')) pre hB, ?_⟩
    intro x hx y hy
    rintro ⟨hyx, -⟩
    obtain ⟨c', hc', hy'⟩ := mem_walkDirsList.mp hy
    have h1 : (pre ++ [nodeName c]) <+: x := walk_mem hx
    have h2 : (pre ++ [nodeName c']) <+: y := walk_mem hy'
    have h3 : (pre ++ [nodeName c']) <+: x := h2.trans hyx
    have hlen : (pre ++ [nodeName c']).length = (pre ++ [nodeName c]).length := by
      simp
    have heq : pre ++ [nodeName c'] = pre ++ [nodeName c] :=
      (List.prefix_of_prefix_length_le h3 h1 (le_of_eq hlen)).eq_of_length hlen
    have hx0 : (pre ++ [nodeName c]) ∈ walkDirs pre c := walk_head_mem hx
    have hy0 : (pre ++ [nodeName c]) ∈ walkDirsList pre ds :=
      mem_walkDirsList.mpr ⟨c', hc', heq ▸ walk_head_mem hy'⟩
    exact hdisj hx0 hy0

theorem walk_pairwise_aux (N : Nat) :
    ∀ (t : FsNode), sizeOf t ≤ N → ∀ pre : List String,
      (walkDirs pre t).Nodup →
      (walkDirs pre t).Pairwise (fun x y => ¬(y <+: x ∧ y ≠ x)) := by
  induction N with
  | zero =>
    intro t ht
    exfalso
    cases t <;> simp at ht
  | succ N ih =>
    intro t ht pre hnd
    cases t with
    | file n =>
      rw [walkDirs_file]
      exact List.Pairwise.nil
    | dir n p cs =>
      rw [walkDirs_dir] at hnd ⊢
      have hszs : ∀ c ∈ sortByName cs, sizeOf c ≤ N := by
        intro c hc
        have h1 := List.sizeOf_lt_of_mem (mem_sortByName.mp hc)
        have h2 : sizeOf (FsNode.dir n p cs) = 1 + sizeOf n + p + sizeOf cs := by
          simp
        omega
      refine List.Pairwise.cons ?_
        (walkList_pairwise_aux N ih (sortByName cs) hszs (pre ++ [n])
          (List.nodup_cons.mp hnd).2)
      intro y hy
      rintro ⟨hyp, hne⟩
      obtain ⟨c, -, hy'⟩ := mem_walkDirsList.mp hy
      have h1 : (pre ++ [n] ++ [nodeName c]) <+: y := walk_mem hy'
      have h2 := h1.length_le
      have h3 := hyp.length_le
      simp at h2 h3
      omega

theorem walk_pairwise {t : FsNode} (h : (walkDirs [] t).Nodup) :
    ((walkDirs [] t).reverse).Pairwise (fun p q => ¬(p <+: q ∧ p ≠ q)) := by
  rw [List.pairwise_reverse]
  exact walk_pairwise_aux (sizeOf t) t le_rfl [] h

theorem chmod_mem_aux (N : Nat) :
    ∀ (t : FsNode), sizeOf t ≤ N → ∀ (pre d : List String),
      d ∈ walkDirs pre t → TdAct.chmod d 448 ∈ phase1Acts pre t := by
  induction N with
  | zero =>
    intro t ht
    exfalso
    cases t <;> simp at ht
  | succ N ih =>
    intro t ht pre d hd
    cases t with
    | file n => rw [walkDirs_file] at hd; cases hd
    | dir n p cs =>
      rw [walkDirs_dir] at hd
      rw [phase1Acts_dir]
      rcases List.mem_cons.mp hd with h | h
      · subst h
        exact List.mem_cons_self _ _
      · obtain ⟨c, hc, hdc⟩ := mem_walkDirsList.mp h
        have hsz : sizeOf c ≤ N := by
          have h1 := List.sizeOf_lt_of_mem (mem_sortByName.mp hc)
          have h2 : sizeOf (FsNode.dir n p cs) = 1 + sizeOf n + p + sizeOf cs := by
            simp
          omega
        exact List.mem_cons_of_mem _
          (mem_phase1ActsList.mpr ⟨c, hc, ih c hsz (pre ++ [n]) d hdc⟩)

theorem chmod_mem {t : FsNode} {pre d : List String}
    (hd : d ∈ walkDirs pre t) : TdAct.chmod d 448 ∈ phase1Acts pre t :=
  chmod_mem_aux (sizeOf t) t le_rfl pre d hd

theorem sortByName_nil : sortByName [] = [] := by
  simp [sortByName]

theorem sortByName_singleton (c : FsNode) : sortByName [c] = [c] := by
  simp [sortByName]

theorem contentLoop_nil_right (x : List ReadResult) : contentLoop x [] = false := by
  cases x with
  | nil => rfl
  | cons h t => cases h <;> rfl

theorem contentLoop_right_err (x : List ReadResult) (rs : List ReadResult) :
    contentLoop x (.err :: rs) = false := by
  cases x with
  | nil => rfl
  | cons h t => cases h <;> rfl

theorem contentLoop_right_eof (x : List ReadResult) (rs : List ReadResult) :
    contentLoop x (.eof :: rs) = false := by
  cases x with
  | nil => rfl
  | cons h t => cases h <;> rfl

theorem contentLoop_left_err (ls rs : List ReadResult) (rb : Nat) :
    contentLoop (.err :: ls) (.ok rb :: rs) = true := rfl

theorem byContentBytes_prefix_right {l r : List Nat} (h : r <+: l) :
    byContentBytes l r = false := by
  induction r generalizing l with
  | nil => exact contentLoop_nil_right _
  | cons b rs ih =>
    obtain ⟨t, rfl⟩ := h
    have h1 := ih (l := rs ++ t) (List.prefix_append rs t)
    simpa [byContentBytes, contentLoop] using h1

theorem byContentBytes_strict_prefix_left {l r : List Nat} (h : l <+: r)
    (hne : l ≠ r) : byContentBytes l r = true := by
  induction l generalizing r with
  | nil =>
    cases r with
    | nil => exact absurd rfl hne
    | cons b rs => simp [byContentBytes, contentLoop]
  | cons a ls ih =>
    obtain ⟨t, rfl⟩ := h
    have hne' : ls ≠ ls ++ t := by
      intro hh
      exact hne (by rw [List.cons_append, ← hh])
    have h1 := ih (r := ls ++ t) (List.prefix_append ls t) hne'
    simpa [byContentBytes, contentLoop] using h1

theorem less_all_false {l r : FileInfoPath} :
    ∀ {cs : List FileRank}, (∀ g ∈ cs, g l r = false) → Less l r cs = false := by
  intro cs
  induction cs with
  | nil => intro _; rfl
  | cons g rest ih =>
    intro h
    have hg := h g (List.mem_cons_self g rest)
    have hrest := ih (fun g' hg' => h g' (List.mem_cons_of_mem g hg'))
    simp [Less, hg, hrest]

theorem lessEvalCount_fst {l r : FileInfoPath} :
    ∀ cs : List FileRank, (lessEvalCount l r cs).1 = Less l r cs := by
  intro cs
  induction cs with
  | nil => rfl
  | cons g rest ih =>
    cases hg : g l r <;> simp [Less, lessEvalCount, hg, ih]

theorem less_first_true {l r : FileInfoPath} {f : FileRank} (hf : f l r = true) :
    ∀ (pre : List FileRank), (∀ g ∈ pre, g l r = false) →
      ∀ post : List FileRank,
        Less l r (pre ++ f :: post) = true ∧
        (lessEvalCount l r (pre ++ f :: post)).2 = pre.length + 1 := by
  intro pre
  induction pre with
  | nil =>
    intro _ post
    constructor
    · simp [Less, hf]
    · simp [lessEvalCount, hf]
  | cons g gs ih =>
    intro h post
    have hg := h g (List.mem_cons_self g gs)
    have h1 := ih (fun g' hg' => h g' (List.mem_cons_of_mem g hg')) post
    constructor
    · simp [Less, hg]
      exact h1.1
    · simp [lessEvalCount, hg, h1.2]

/-- C1: in every multi-step lifecycle operation (TempCloneDir,
TempInitChdir, TempCloneChdir, TempCreateChdir), a failure of a step
performed after the temporary directory was created (tree copy, Getwd,
Chdir, tree creation) makes the operation invoke the already-created
teardown before returning, and the operation returns an empty path, a nil
teardown and the error.  Each conjunct fixes the failing step in the
outcome environment and states the exact result and effect trace; the
trace ends with the effects of running the created teardown. -/
theorem lifecycle_failure_runs_cleanup (src root wd e : String)
    (cp c tc : Option String) (g : Except String String) :
    TempCloneDir src ⟨.ok root, some e, g, c, tc⟩ =
      (("", none, some e),
        [.mkTempDir, .treeCopy src root, .initCleanupRun root]) ∧
    TempInitChdir ⟨.ok root, cp, .error e, c, tc⟩ =
      (("", none, some e), [.mkTempDir, .getwd, .initCleanupRun root]) ∧
    TempInitChdir ⟨.ok root, cp, .ok wd, some e, tc⟩ =
      (("", none, some e),
        [.mkTempDir, .getwd, .chdir root, .initCleanupRun root]) ∧
    TempCloneChdir src ⟨.ok root, none, .error e, c, tc⟩ =
      (("", none, some e),
        [.mkTempDir, .treeCopy src root, .getwd, .initCleanupRun root]) ∧
    TempCloneChdir src ⟨.ok root, none, .ok wd, some e, tc⟩ =
      (("", none, some e),
        [.mkTempDir, .treeCopy src root, .getwd, .chdir root,
          .initCleanupRun root]) ∧
    TempCreateChdir ⟨.ok root, cp, .ok wd, none, some e⟩ =
      (("", none, some e),
        [.mkTempDir, .getwd, .chdir root, .treeCreate, .chdir wd,
          .initCleanupRun root]) :=
  ⟨rfl, rfl, rfl, rfl, rfl, rfl⟩

/-- C8: the teardown returned by the chdir variants on success is the
composite closure chdirThen wd (initCleanup root), and running any such
composite first changes back to the captured working directory and only
afterwards runs the underlying teardown. -/
theorem chdir_teardown_restores_wd_first (src root wd : String)
    (cp tc : Option String) (td : Teardown) :
    TempInitChdir ⟨.ok root, cp, .ok wd, none, tc⟩ =
      ((wd, some (.chdirThen wd (.initCleanup root)), none),
        [.mkTempDir, .getwd, .chdir root]) ∧
    TempCloneChdir src ⟨.ok root, none, .ok wd, none, tc⟩ =
      ((wd, some (.chdirThen wd (.initCleanup root)), none),
        [.mkTempDir, .treeCopy src root, .getwd, .chdir root]) ∧
    runTeardown (.chdirThen wd td) = .chdir wd :: runTeardown td :=
  ⟨rfl, rfl, rfl⟩

/-- C2: the teardown of TempInitDir is a two-phase removal: phase one
walks the tree top-down, chmods every directory to 0700 (448) and records
it in visitation order while removing every non-directory entry
immediately; phase two removes the recorded directories in reverse
visitation order, and in that removal order no directory ever precedes
one of its own descendants, so every directory is removed only after all
of its descendants.  Paths are segment lists; a strict ancestor is a
strict list prefix.  The Nodup hypothesis says the walked paths are
distinct, as they are on a real filesystem. -/
theorem teardown_two_phase_removal (t t₂ : FsNode) (d : List String)
    (hd : d ∈ walkDirs [] t)
    (hnd : (walkDirs [] t₂).Nodup) :
    teardownActs t =
      phase1Acts [] t ++
        (walkDirs [] t).reverse.map (fun q => TdAct.removeAll q) ∧
    TdAct.chmod d 448 ∈ phase1Acts [] t ∧
    ((walkDirs [] t₂).reverse).Pairwise (fun p q => ¬(p <+: q ∧ p ≠ q)) :=
  ⟨rfl, chmod_mem hd, walk_pairwise hnd⟩

/-- Concrete tree used to witness the teardown theorem: a root directory
containing one read-only subdirectory with one file. -/
def sampleTree : FsNode := .dir "r" 448 [.dir "s" 292 [.file "f"]]

/-- Witness for C2 at the concrete sample tree. -/
theorem teardown_two_phase_removal_witness :
    TdAct.chmod ["r"] 448 ∈ phase1Acts [] sampleTree ∧
    ((walkDirs [] sampleTree).reverse).Pairwise
      (fun p q => ¬(p <+: q ∧ p ≠ q)) := by
  have hw : walkDirs [] sampleTree = [["r"], ["r", "s"]] := by
    simp [sampleTree, walkDirs_dir, walkDirs_file, walkDirsList_cons,
      walkDirsList_nil, sortByName_singleton]
  have h := teardown_two_phase_removal sampleTree sampleTree ["r"]
    (by rw [hw]; simp) (by rw [hw]; decide)
  exact ⟨h.2.1, h.2.2⟩

/-- C3: the comparison loop of ByContent reads the right stream first: if
the right stream exhausts first (its byte list is a prefix of the left's,
equality and two empty files included) the result is false; if the left
stream exhausts first (its byte list is a strict prefix of the right's)
the result is true; comparing left "ab" against right "a" gives false;
and when both streams fail on their next read, the right-side read
happens first, so the result is false. -/
theorem byContent_right_stream_first (l₁ r₁ l₂ r₂ : List Nat)
    (h₁ : r₁ <+: l₁) (h₂ : l₂ <+: r₂) (h₃ : l₂ ≠ r₂) :
    byContentBytes l₁ r₁ = false ∧
    byContentBytes l₂ r₂ = true ∧
    byContentBytes [97, 98] [97] = false ∧
    (∀ ls rs : List ReadResult,
      contentLoop (ReadResult.err :: ls) (ReadResult.err :: rs) = false) :=
  ⟨byContentBytes_prefix_right h₁, byContentBytes_strict_prefix_left h₂ h₃,
    rfl, fun _ rs => contentLoop_right_err _ rs⟩

/-- Witness for C3 with right "a" a strict prefix of left "ab" and left
"a" a strict prefix of right "ab". -/
theorem byContent_right_stream_first_witness :
    byContentBytes [97, 98] [97] = false ∧
    byContentBytes [97] [97, 98] = true := by
  have h := byContent_right_stream_first [97, 98] [97] [97] [97, 98]
    ⟨[98], rfl⟩ ⟨[98], rfl⟩ (by decide)
  exact ⟨h.1, h.2.1⟩

/-- C4 counterexample: after both files open successfully, a non-EOF read
error on the first loop iteration is not reported through the injected
fatal capability; the comparison returns the ordinary boolean false. -/
theorem byContent_read_error_not_fatal :
    ByContent (fun _ => Except.ok [ReadResult.err])
      ⟨"/tmp/l", "l", false, 420, 1, 0⟩ ⟨"/tmp/r", "r", false, 420, 1, 0⟩ =
      FatalOr.value false := by
  simp [ByContent, contentLoop_right_err]

/-- C4 (amended): only errors opening either file are reported through the
injected fatal capability; read errors during the comparison loop are
treated like end of stream and produce ordinary boolean results: a
right-stream read error yields false and a left-stream read error (after
a successful right read) yields true. -/
theorem byContent_fatal_only_on_open
    (fs₁ fs₂ fs₃ fs₄ : String → Except String (List ReadResult))
    (left right : FileInfoPath) (e : String) (ls rs : List ReadResult)
    (rb : Nat)
    (h₁ : fs₁ left.path = .error e)
    (h₂l : fs₂ left.path = .ok ls) (h₂r : fs₂ right.path = .error e)
    (h₃l : fs₃ left.path = .ok ls)
    (h₃r : fs₃ right.path = .ok (ReadResult.err :: rs))
    (h₄l : fs₄ left.path = .ok (ReadResult.err :: ls))
    (h₄r : fs₄ right.path = .ok (ReadResult.ok rb :: rs)) :
    ByContent fs₁ left right = .fatal e ∧
    ByContent fs₂ left right = .fatal e ∧
    ByContent fs₃ left right = .value false ∧
    ByContent fs₄ left right = .value true := by
  refine ⟨?_, ?_, ?_, ?_⟩
  · simp [ByContent, h₁]
  · simp [ByContent, h₂l, h₂r]
  · simp [ByContent, h₃l, h₃r, contentLoop_right_err]
  · simp [ByContent, h₄l, h₄r, contentLoop_left_err]

/-- Witness for the amended C4 at concrete filesystems and paths. -/
theorem byContent_fatal_only_on_open_witness :
    ByContent (fun _ => Except.error "boom")
      ⟨"/l", "l", false, 420, 1, 0⟩ ⟨"/r", "r", false, 420, 1, 0⟩ =
      .fatal "boom" ∧
    ByContent (fun p => if p = "/r" then Except.error "boom" else Except.ok [])
      ⟨"/l", "l", false, 420, 1, 0⟩ ⟨"/r", "r", false, 420, 1, 0⟩ =
      .fatal "boom" ∧
    ByContent (fun p => if p = "/r" then Except.ok [ReadResult.err]
        else Except.ok [])
      ⟨"/l", "l", false, 420, 1, 0⟩ ⟨"/r", "r", false, 420, 1, 0⟩ =
      .value false ∧
    ByContent (fun p => if p = "/r" then Except.ok [ReadResult.ok 97]
        else Except.ok [ReadResult.err])
      ⟨"/l", "l", false, 420, 1, 0⟩ ⟨"/r", "r", false, 420, 1, 0⟩ =
      .value true :=
  byContent_fatal_only_on_open _ _ _ _ _ _ "boom" [] [] 97
    rfl rfl rfl rfl rfl rfl rfl

/-- C5: Less evaluates the chain left to right and returns true at the
first comparator returning true, applying exactly the comparators up to
and including that one (pre.length + 1 applications); if every comparator
returns false it returns false; the empty chain always returns false.
The instrumented lessEvalCount agrees with Less and counts comparator
applications. -/
theorem less_short_circuits (l r : FileInfoPath)
    (cs pre post : List FileRank) (f : FileRank)
    (hcs : ∀ g ∈ cs, g l r = false)
    (hpre : ∀ g ∈ pre, g l r = false) (hf : f l r = true) :
    Less l r [] = false ∧
    Less l r cs = false ∧
    Less l r (pre ++ f :: post) = true ∧
    (lessEvalCount l r (pre ++ f :: post)).2 = pre.length + 1 ∧
    (∀ cs₂ : List FileRank, (lessEvalCount l r cs₂).1 = Less l r cs₂) :=
  ⟨rfl, less_all_false hcs, (less_first_true hf pre hpre post).1,
    (less_first_true hf pre hpre post).2, fun cs₂ => lessEvalCount_fst cs₂⟩

/-- Witness for C5: with one always-false comparator before an always-true
one and one after it, Less returns true having applied exactly two
comparators. -/
theorem less_short_circuits_witness :
    Less ⟨"", "", false, 0, 0, 0⟩ ⟨"", "", false, 0, 0, 0⟩
      ([fun _ _ => false] ++ (fun _ _ => true) :: [fun _ _ => false]) = true ∧
    (lessEvalCount ⟨"", "", false, 0, 0, 0⟩ ⟨"", "", false, 0, 0, 0⟩
      ([fun _ _ => false] ++ (fun _ _ => true) :: [fun _ _ => false])).2 = 2 := by
  have h := less_short_circuits ⟨"", "", false, 0, 0, 0⟩ ⟨"", "", false, 0, 0, 0⟩
    [fun _ _ => false] [fun _ _ => false] [fun _ _ => false] (fun _ _ => true)
    (by intro g hg; simp at hg; subst hg; rfl)
    (by intro g hg; simp at hg; subst hg; rfl)
    rfl
  exact ⟨h.2.2.1, h.2.2.2.1⟩

/-- C6: ByTime(a,b) is true exactly when a's modification time is strictly
earlier than b's minus 10 microseconds (10000 nanoseconds), and whenever
two timestamps lie within 10 microseconds of each other neither direction
ranks as less. -/
theorem byTime_tolerance (a b a₂ b₂ : FileInfoPath)
    (h : (a₂.modTime - b₂.modTime).natAbs ≤ 10000) :
    (ByTime a b = true ↔ a.modTime < b.modTime - 10000) ∧
    ByTime a₂ b₂ = false ∧ ByTime b₂ a₂ = false := by
  refine ⟨by simp [ByTime], ?_, ?_⟩ <;> simp [ByTime] <;> omega

/-- Witness for C6 at two timestamps 5 microseconds apart. -/
theorem byTime_tolerance_witness :
    ByTime ⟨"", "", false, 0, 0, 0⟩ ⟨"", "", false, 0, 0, 5000⟩ = false ∧
    ByTime ⟨"", "", false, 0, 0, 5000⟩ ⟨"", "", false, 0, 0, 0⟩ = false := by
  have h := byTime_tolerance ⟨"", "", false, 0, 0, 0⟩ ⟨"", "", false, 0, 0, 0⟩
    ⟨"", "", false, 0, 0, 0⟩ ⟨"", "", false, 0, 0, 5000⟩ (by decide)
  exact ⟨h.2.1, h.2.2⟩

/-- C7: the content comparison is decided by the first differing byte,
independent of the files' lengths: on contents with a common prefix p and
first difference lb versus rb, the result is exactly whether lb is
numerically smaller; in particular "aaa" ranks below "ab" and "aaaa"
ranks below "ab". -/
theorem byContent_first_diff_decides (p ls rs : List Nat) (lb rb : Nat)
    (h : lb ≠ rb) :
    byContentBytes (p ++ lb :: ls) (p ++ rb :: rs) = decide (lb < rb) ∧
    byContentBytes [97, 97, 97] [97, 98] = true ∧
    byContentBytes [97, 97, 97, 97] [97, 98] = true := by
  refine ⟨?_, rfl, rfl⟩
  induction p with
  | nil => simp [byContentBytes, contentLoop, h]
  | cons a p ih => simpa [byContentBytes, contentLoop] using ih

/-- Witness for C7 at contents "aaa" and "ab": common prefix "a", first
difference 97 versus 98. -/
theorem byContent_first_diff_decides_witness :
    byContentBytes ([97] ++ 97 :: [97]) ([97] ++ 98 :: []) = decide (97 < 98) := by
  have h := byContent_first_diff_decides [97] [97] [] 97 98 (by decide)
  exact h.1

/-- C9: the five rank primitives are irreflexive: on any two descriptors
with identical name, directory flag, mode, size and modification time
(in particular on one descriptor and itself) they all return false, and
hence Less over any chain built from them returns false. -/
theorem rank_primitives_irreflexive (a b : FileInfoPath)
    (chain : List FileRank)
    (hname : a.name = b.name) (hdir : a.isDir = b.isDir)
    (hmode : a.mode = b.mode) (hsize : a.size = b.size)
    (htime : a.modTime = b.modTime)
    (hchain : ∀ f ∈ chain,
      f = ByName ∨ f = ByDir ∨ f = BySize ∨ f = ByTime ∨ f = ByPerm) :
    ByName a b = false ∧ ByDir a b = false ∧ BySize a b = false ∧
    ByTime a b = false ∧ ByPerm a b = false ∧ Less a b chain = false := by
  have h1 : ByName a b = false := by simp [ByName, hname]
  have h2 : ByDir a b = false := by
    cases hb : b.isDir <;> simp [ByDir, hdir, hb]
  have h3 : BySize a b = false := by simp [BySize, hsize]
  have h4 : ByTime a b = false := by simp [ByTime, htime]
  have h5 : ByPerm a b = false := by simp [ByPerm, hmode]
  refine ⟨h1, h2, h3, h4, h5, less_all_false ?_⟩
  intro f hf
  rcases hchain f hf with rfl | rfl | rfl | rfl | rfl
  · exact h1
  · exact h2
  · exact h3
  · exact h4
  · exact h5

/-- Witness for C9: a descriptor compared with itself under the chain of
all five primitives. -/
theorem rank_primitives_irreflexive_witness :
    ByName ⟨"/x", "x", true, 493, 3, 7⟩ ⟨"/x", "x", true, 493, 3, 7⟩ = false ∧
    ByDir ⟨"/x", "x", true, 493, 3, 7⟩ ⟨"/x", "x", true, 493, 3, 7⟩ = false ∧
    BySize ⟨"/x", "x", true, 493, 3, 7⟩ ⟨"/x", "x", true, 493, 3, 7⟩ = false ∧
    ByTime ⟨"/x", "x", true, 493, 3, 7⟩ ⟨"/x", "x", true, 493, 3, 7⟩ = false ∧
    ByPerm ⟨"/x", "x", true, 493, 3, 7⟩ ⟨"/x", "x", true, 493, 3, 7⟩ = false ∧
    Less ⟨"/x", "x", true, 493, 3, 7⟩ ⟨"/x", "x", true, 493, 3, 7⟩
      [ByName, ByDir, BySize, ByTime, ByPerm] = false :=
  rank_primitives_irreflexive ⟨"/x", "x", true, 493, 3, 7⟩
    ⟨"/x", "x", true, 493, 3, 7⟩ [ByName, ByDir, BySize, ByTime, ByPerm]
    rfl rfl rfl rfl rfl (fun f hf => by simpa using hf)

/-- C10: each of the five rank primitives is asymmetric: it never holds in
both directions on the same pair; for ByTime the two tolerance-shifted
strict inequalities cannot hold simultaneously. -/
theorem rank_primitives_asymmetric (a b : FileInfoPath) :
    (ByName a b && ByName b a) = false ∧
    (ByDir a b && ByDir b a) = false ∧
    (BySize a b && BySize b a) = false ∧
    (ByTime a b && ByTime b a) = false ∧
    (ByPerm a b && ByPerm b a) = false := by
  refine ⟨?_, ?_, ?_, ?_, ?_⟩
  · by_cases h : a.name < b.name
    · simp [ByName, h, lt_asymm h]
    · simp [ByName, h]
  · cases ha : a.isDir <;> cases hb : b.isDir <;> simp [ByDir, ha, hb]
  · by_cases h : a.size < b.size
    · simp [BySize, h]
      intro h'
      omega
    · simp [BySize, h]
  · simp only [ByTime, Bool.and_eq_false_iff, decide_eq_false_iff_not]
    omega
  · simp only [ByPerm, Bool.and_eq_false_iff, decide_eq_false_iff_not]
    omega

end Fst
